import Mathlib

/-!
Verification development for the hub/spoke coordination layer of mpi-sppy:
`mpisppy/cylinders/spcommunicator.py`, `mpisppy/cylinders/slam_heuristic.py`
and `mpisppy/cylinders/xhatlooper_bounder.py`, shallowly embedded over
rationals (machine doubles are modelled as exact rationals, the NaN sentinel
as a distinguished slot constructor).
-/

namespace MpiSppy

/-! ## Window buffers (`spcommunicator.py`) -/

/-- One floating-point slot of a window buffer: either the NaN sentinel
used for uninitialized payload, or an actual numeric value. -/
inductive FSlot where
  | nan : FSlot
  | val : ℚ → FSlot
deriving DecidableEq, Repr

/-- `MPI.DOUBLE.size` in bytes: every slot has this uniform width. -/
def DOUBLE_size : ℕ := 8

/-- `communicator_array(size)` from `spcommunicator.py`:
`arr = np.empty(size+1)`, then `arr[:] = np.nan`, then `arr[-1] = 0`. -/
def communicator_array (size : ℕ) : List FSlot :=
  (List.replicate (size + 1) FSlot.nan).set size (FSlot.val 0)

/-- Result of `SPCommunicator._make_window(length)`: the window byte size
passed to `MPI.Win.Allocate`, the displacement unit, and the mapped buffer. -/
structure WindowResult where
  winSizeBytes : ℕ
  dispUnit : ℕ
  buff : List FSlot
deriving DecidableEq, Repr

/-- `SPCommunicator._make_window(length)`:
`size = MPI.DOUBLE.size * (length + 1)`;
`window = MPI.Win.Allocate(size, MPI.DOUBLE.size, ...)`;
`buff = np.ndarray(shape=(length+1,), ...)`; `buff[:] = np.nan`;
`buff[-1] = 0.`. -/
def make_window (length : ℕ) : WindowResult :=
  { winSizeBytes := DOUBLE_size * (length + 1)
  , dispUnit := DOUBLE_size
  , buff := (List.replicate (length + 1) FSlot.nan).set length (FSlot.val 0) }

/-! ## Column-wise extremum reduction (`slam_heuristic.py`)

`_SlamHeuristic.extract_local_candidate_soln` reshapes the flat local nonant
vector into a (num_scen × num_vars) matrix and applies the numpy operator
(`np.amax` for `SlamMaxHeuristic`, `np.amin` for `SlamMinHeuristic`) along
the scenario axis; `main` then runs `Allreduce` with the matching MPI
operator (`mpi.MAX` / `mpi.MIN`) across the cylinder communicator. -/

/-- Column-wise reduction of a matrix (list of rows) by a binary operator:
the shape of `np.amax(m, axis=0)` / `np.amin(m, axis=0)` for a nonempty `m`,
and equally the shape of an elementwise `Allreduce` over per-rank vectors. -/
def colReduce (op : ℚ → ℚ → ℚ) : List (List ℚ) → List ℚ
  | [] => []
  | [r] => r
  | r :: rs => List.zipWith op r (colReduce op rs)

/-- `np.reshape(localnonants, (num_scen, num_vars))`: cut the flat vector
into `num_scen` consecutive rows of `num_vars` entries. -/
def np_reshape (l : List ℚ) (num_scen num_vars : ℕ) : List (List ℚ) :=
  (List.range num_scen).map (fun i => (l.drop (i * num_vars)).take num_vars)

/-- `_SlamHeuristic.extract_local_candidate_soln` for a given numpy
operator: reshape, then reduce along the scenario axis (axis 0). -/
def extract_local_candidate_soln (op : ℚ → ℚ → ℚ)
    (localnonants : List ℚ) (num_scen num_vars : ℕ) : List ℚ :=
  colReduce op (np_reshape localnonants num_scen num_vars)

/-- `self.cylinder_comm.Allreduce(local_candidate, global_candidate, op)`:
the elementwise reduction of the per-replica candidate vectors by the MPI
operator, identical on every rank. -/
def Allreduce_vecs (op : ℚ → ℚ → ℚ) (vecs : List (List ℚ)) : List ℚ :=
  colReduce op vecs

/-! ## Rounding and variable fixing (`_SlamHeuristic.main`, lines 92-106) -/

/-- Builtin `round` of Python 3 on a real value: round half to even
(what `round(val + rounding_bias)` executes on a float). -/
def pythonRound (q : ℚ) : ℤ :=
  if q - (⌊q⌋ : ℚ) < 1/2 then ⌊q⌋
  else if 1/2 < q - (⌊q⌋ : ℚ) then ⌊q⌋ + 1
  else if Even ⌊q⌋ then ⌊q⌋ else ⌊q⌋ + 1

/-- A Pyomo nonant variable as seen by the slam fixing loop: its type
predicates, its membership in `all_surrogate_nonants`, and the value it is
currently fixed to (if any). -/
structure NonantVar where
  is_binary : Bool
  is_integer : Bool
  surrogate : Bool
  fixedTo : Option ℚ
deriving DecidableEq, Repr

/-- The value the slam loop passes to `var.fix(...)` for one non-surrogate
variable: `val = global_candidate[ix]`, then
`if var.is_binary() or var.is_integer(): val = round(val + rounding_bias)`. -/
def slam_fix_value (var : NonantVar) (candVal : ℚ) (rounding_bias : ℚ) : ℚ :=
  if var.is_binary || var.is_integer
  then (pythonRound (candVal + rounding_bias) : ℚ)
  else candVal

/-- One pass of `for ix, var in enumerate(nonant_indices.values())`
starting at index `ix`: a surrogate variable is skipped (`continue`) and
left untouched, every other variable is fixed to `slam_fix_value` at the
candidate entry of its own enumeration index. -/
def slam_fix_go (cand : List ℚ) (bias : ℚ) : ℕ → List NonantVar → List NonantVar
  | _, [] => []
  | ix, var :: rest =>
      (if var.surrogate then var
       else { var with fixedTo := some (slam_fix_value var (cand.getD ix 0) bias) })
      :: slam_fix_go cand bias (ix + 1) rest

/-- The fixing loop over the nonant variables of one local scenario. -/
def slam_fix_vars (vars : List NonantVar) (cand : List ℚ) (bias : ℚ) : List NonantVar :=
  slam_fix_go cand bias 0 vars

/-- `for s in self.opt.local_scenarios.values(): ...`: the same global
candidate is fixed into every local scenario. -/
def slam_fix_scenarios (scenarios : List (List NonantVar)) (cand : List ℚ)
    (bias : ℚ) : List (List NonantVar) :=
  scenarios.map (fun vars => slam_fix_vars vars cand bias)

/-! ## New-data detection via the write counter

`mpisppy/cylinders/spoke.py` (the Spoke base class with `poll` /
`got_kill_signal` / `update_if_improving`) is not among the provided source
files; the publish/poll counter protocol is modelled from the spec. -/

/-- An event seen by one reader of one window: the owner publishes (which
strictly increases the write counter), or the reader polls. -/
inductive WinEvent where
  | publish : WinEvent
  | poll : WinEvent
deriving DecidableEq, Repr

/-- Modelled from the spec: the counter/poll discipline of
`mpisppy/cylinders/spoke.py`, which is not among the provided sources.
State is (window write counter, reader last-seen counter); the counter
starts at zero (allocation) and each publish increments it; a poll fetches
the counter, signals new data exactly when the fetched counter is strictly
greater than the last-seen value, and then remembers the fetched value.
`detectRun hc ls events` returns the counter values at which new-data
detection evaluated to true, in order. -/
def detectRun : ℕ → ℕ → List WinEvent → List ℕ
  | _, _, [] => []
  | hc, ls, WinEvent.publish :: es => detectRun (hc + 1) ls es
  | hc, ls, WinEvent.poll :: es =>
      if ls < hc then hc :: detectRun hc hc es else detectRun hc ls es

/-- Number of publishes in an event list. -/
def publishCount (es : List WinEvent) : ℕ :=
  (es.filter (fun e => e = WinEvent.publish)).length

/-- The schedule in which the reader polls once after every publish. -/
def alternatingSchedule (n : ℕ) : List WinEvent :=
  (List.replicate n [WinEvent.publish, WinEvent.poll]).flatten

/-! ## `update_if_improving` (Spoke → hub reporting) -/

/-- Modelled from the spec: `update_if_improving(value)` of an
inner-bound (minimizing) spoke, from `mpisppy/cylinders/spoke.py` which is
not among the provided sources. The tracked best starts at plus infinity
(`⊤`); a call publishes (second component `true`) and overwrites the best
only when the value strictly improves it; otherwise, ties included, it is
a no-op. -/
def update_if_improving_min (best : WithTop ℚ) (value : ℚ) : WithTop ℚ × Bool :=
  if (value : WithTop ℚ) < best then ((value : WithTop ℚ), true) else (best, false)

/-- Modelled from the spec: `update_if_improving(value)` of an
outer-bound (maximizing) spoke; the tracked best starts at minus infinity
(`⊥`) and only a strictly greater value overwrites it. -/
def update_if_improving_max (best : WithBot ℚ) (value : ℚ) : WithBot ℚ × Bool :=
  if best < (value : WithBot ℚ) then ((value : WithBot ℚ), true) else (best, false)

/-- The hub-tracked best of a minimizing spoke after a sequence of
`update_if_improving` calls, starting from the initial best `+∞`. -/
def run_min (calls : List ℚ) : WithTop ℚ :=
  calls.foldl (fun b v => (update_if_improving_min b v).1) ⊤

/-- The hub-tracked best of a maximizing spoke after a sequence of
`update_if_improving` calls, starting from the initial best `-∞`. -/
def run_max (calls : List ℚ) : WithBot ℚ :=
  calls.foldl (fun b v => (update_if_improving_max b v).1) ⊥

/-! ## The spoke main loop (`_SlamHeuristic.main`, `XhatLooperInnerBound.main`)

Both loops have the shape
`while not self.got_kill_signal(): if <new data>: ...; update_if_improving(v)`.
The environment of one pass (the kill-window flag, whether the hub published
a new nonant vector, and the value the body would report) is abstracted as an
input record; the loop structure itself is embedded from the source. -/

/-- The environment of one loop pass: what `got_kill_signal()` returns on
this pass, whether `update_nonants()` / `new_nonants` signals new data, and
the objective value the body would pass to `update_if_improving`. -/
structure SpokeIter where
  kill : Bool
  hasNew : Bool
  value : ℚ
deriving DecidableEq, Repr

/-- The `while not self.got_kill_signal()` loop shared by
`_SlamHeuristic.main` and `XhatLooperInnerBound.main`: returns the list of
values passed to `update_if_improving` and the number of
`got_kill_signal()` evaluations. The loop checks the flag at the top of
every pass, runs the body only when the flag is false, and exits as soon
as the flag is observed true. -/
def spoke_main_loop : List SpokeIter → List ℚ × ℕ
  | [] => ([], 0)
  | it :: rest =>
      if it.kill then ([], 1)
      else
        let r := spoke_main_loop rest
        ((if it.hasNew then [it.value] else []) ++ r.1, r.2 + 1)

/-! ## Options dictionaries and startup preconditions -/

/-- A Python option value: a number, a boolean, or a nested dictionary. -/
inductive OptVal where
  | num : ℚ → OptVal
  | boolean : Bool → OptVal
  | table : List (String × OptVal) → OptVal

/-- A flat key→value options mapping. -/
abbrev Dict := List (String × OptVal)

/-- The errors the embedded startup/readiness code can raise:
the two `RuntimeError`s of `slam_heur_prep`, the two `RuntimeError`s of
`xhatlooper_prep`, a Python `KeyError` from `d[k]` on an absent key, a
`TypeError` from subscripting a non-dictionary, and the `quit()` abort
(with its diagnostic values) on scenario-probability normalization
failure. -/
inductive PyError where
  | multistageError
  | notXhatEval
  | bundlesError
  | keyError (k : String)
  | typeError
  | abortProbability (E1 tolerance : ℚ)
deriving DecidableEq, Repr

/-- Python `d[k]`: the value at the key, or a `KeyError`. -/
def dictGet (d : Dict) (k : String) : Except PyError OptVal :=
  match d.find? (fun p => p.1 = k) with
  | some p => Except.ok p.2
  | none => Except.error (PyError.keyError k)

/-- Python `d.get(k, default)`: never raises. -/
def dictGetD (d : Dict) (k : String) (default : OptVal) : OptVal :=
  match d.find? (fun p => p.1 = k) with
  | some p => p.2
  | none => default

/-- Python `k in d`. -/
def dictMem (d : Dict) (k : String) : Bool :=
  (d.find? (fun p => p.1 = k)).isSome

/-- The Python comparison `v == 0` for an option value. -/
def OptVal.isZero : OptVal → Bool
  | OptVal.num q => q = 0
  | _ => false

/-- The state of the wrapped optimizer (`self.opt`) that the two spokes
inspect at startup. -/
structure OptState where
  multistage : Bool
  isXhatEval : Bool
  options : Dict
  E1 : ℚ
  E1_tolerance : ℚ
  current_nonants : List ℚ

/-- `_SlamHeuristic.slam_heur_prep`: raise if the model is multistage;
raise if the optimizer is not an `Xhat_Eval`; then read
`self.opt.options["verbose"]` (a `KeyError` if absent). -/
def slam_heur_prep (opt : OptState) : Except PyError Unit :=
  if opt.multistage then Except.error PyError.multistageError
  else if !opt.isXhatEval then Except.error PyError.notXhatEval
  else match dictGet opt.options "verbose" with
       | Except.error e => Except.error e
       | Except.ok _ => Except.ok ()

/-- `self.opt.options.get("rounding_bias", 0.0)` read inside the slam
main-loop body: absent keys fall back to the default, never an error. -/
def slam_rounding_bias (options : Dict) : OptVal :=
  dictGetD options "rounding_bias" (OptVal.num 0)

/-- `_SlamHeuristic.main`: run `slam_heur_prep` first, then enter the
kill-signal loop. An error in prep aborts before any loop pass runs. -/
def slam_main (opt : OptState) (iters : List SpokeIter) :
    Except PyError (List ℚ × ℕ) :=
  match slam_heur_prep opt with
  | Except.error e => Except.error e
  | Except.ok _ => Except.ok (spoke_main_loop iters)

/-- `XhatLooperInnerBound.xhatlooper_prep`: raise if
`"bundles_per_rank" in options` with a nonzero value; raise if the
optimizer is not an `Xhat_Eval`; then (after `_update_E1`) abort the whole
run via `quit()` with a diagnostic when `abs(1 - E1) > E1_tolerance`;
otherwise finish warm-up and cache the current nonant values
(`self.opt._save_nonants()`) as the restore point, returned here. -/
def xhatlooper_prep (opt : OptState) : Except PyError (List ℚ) :=
  if dictMem opt.options "bundles_per_rank"
     && !(OptVal.isZero (dictGetD opt.options "bundles_per_rank" (OptVal.num 0)))
  then Except.error PyError.bundlesError
  else if !opt.isXhatEval then Except.error PyError.notXhatEval
  else if ¬ (|1 - opt.E1| ≤ opt.E1_tolerance)
  then Except.error (PyError.abortProbability opt.E1 opt.E1_tolerance)
  else Except.ok opt.current_nonants

/-- `self.opt.options["xhat_looper_options"]["scen_limit"]` as executed at
the top of `XhatLooperInnerBound.main`, after prep and before the loop:
a `KeyError` on either absent key, a `TypeError` if the outer value is not
a dictionary. -/
def scen_limit_lookup (options : Dict) : Except PyError OptVal :=
  match dictGet options "xhat_looper_options" with
  | Except.error e => Except.error e
  | Except.ok (OptVal.table t) => dictGet t "scen_limit"
  | Except.ok _ => Except.error PyError.typeError

/-- `XhatLooperInnerBound.main`: run `xhatlooper_prep`, then read
`scen_limit`, then enter the kill-signal loop. -/
def xhatlooper_main (opt : OptState) (iters : List SpokeIter) :
    Except PyError (List ℚ × ℕ) :=
  match xhatlooper_prep opt with
  | Except.error e => Except.error e
  | Except.ok _ =>
      match scen_limit_lookup opt.options with
      | Except.error e => Except.error e
      | Except.ok _ => Except.ok (spoke_main_loop iters)

/-- `SPCommunicator.__init__(..., options=None)`: role construction stores
the options mapping (defaulting to an empty dictionary) and reads no
option key, so it cannot raise a key error. -/
def spcommunicator_init (options : Option Dict) : Dict :=
  options.getD []

/-! ## Theorems -/

/-- Auxiliary: reading any in-range slot of a replicate list. -/
theorem get?_replicate_of_lt {α : Type} (a : α) {i n : ℕ} (h : i < n) :
    (List.replicate n a).get? i = some a := by
  rw [List.get?_eq_getElem?, List.getElem?_eq_getElem (by simpa using h)]
  simp

/-- C7: `allocate(length, group)` (embedded as `_make_window` /
`communicator_array`) creates a buffer of exactly `length+1` slots, each of
the uniform `MPI.DOUBLE` width; every payload slot starts as the NaN
sentinel and the final slot, the write counter, starts at zero; the
standalone `communicator_array` builds the same layout. -/
theorem make_window_buffer_layout (length : ℕ) :
    (make_window length).buff.length = length + 1 ∧
    (∀ i, i < length → (make_window length).buff.get? i = some FSlot.nan) ∧
    (make_window length).buff.get? length = some (FSlot.val 0) ∧
    (make_window length).winSizeBytes = DOUBLE_size * (length + 1) ∧
    (make_window length).dispUnit = DOUBLE_size ∧
    communicator_array length = (make_window length).buff := by
  refine ⟨?_, ?_, ?_, rfl, rfl, rfl⟩
  · simp [make_window]
  · intro i hi
    rw [make_window]
    rw [List.get?_set_of_lt' (FSlot.val 0) _
      (by simp : length < (List.replicate (length + 1) FSlot.nan).length)]
    rw [if_neg (by omega)]
    exact get?_replicate_of_lt FSlot.nan (by omega)
  · rw [make_window]
    rw [List.get?_set_of_lt' (FSlot.val 0) _
      (by simp : length < (List.replicate (length + 1) FSlot.nan).length)]
    simp

/-- Witness for C7 at `length = 2`. -/
theorem make_window_buffer_layout_witness :
    (make_window 2).buff.get? 1 = some FSlot.nan ∧
    (make_window 2).buff.get? 2 = some (FSlot.val 0) :=
  ⟨(make_window_buffer_layout 2).2.1 1 (by decide),
   (make_window_buffer_layout 2).2.2.1⟩

/-- Auxiliary: `zipWith` of an associative operator is associative. -/
theorem zipWith_assoc_of_assoc (op : ℚ → ℚ → ℚ)
    (hop : ∀ a b c, op (op a b) c = op a (op b c)) :
    ∀ (a b c : List ℚ),
      List.zipWith op (List.zipWith op a b) c = List.zipWith op a (List.zipWith op b c) := by
  intro a
  induction a with
  | nil => intro b c; simp
  | cons x xs ih =>
      intro b c
      cases b with
      | nil => simp
      | cons y ys =>
          cases c with
          | nil => simp
          | cons z zs => simp [hop, ih]

/-- Auxiliary: column reduction distributes over appending two nonempty
row blocks. -/
theorem colReduce_append (op : ℚ → ℚ → ℚ)
    (hop : ∀ a b c, op (op a b) c = op a (op b c)) :
    ∀ (A B : List (List ℚ)), A ≠ [] → B ≠ [] →
      colReduce op (A ++ B) = List.zipWith op (colReduce op A) (colReduce op B) := by
  intro A
  induction A with
  | nil => intro B h _; exact absurd rfl h
  | cons r rs ih =>
      intro B _ hB
      cases rs with
      | nil =>
          cases B with
          | nil => exact absurd rfl hB
          | cons b bs => simp [colReduce]
      | cons r2 rs2 =>
          have hstep : colReduce op ((r :: r2 :: rs2) ++ B) =
              List.zipWith op r (colReduce op ((r2 :: rs2) ++ B)) := by
            cases B <;> simp [colReduce]
          rw [hstep, ih B (by simp) hB]
          rw [show colReduce op (r :: r2 :: rs2) =
                List.zipWith op r (colReduce op (r2 :: rs2)) from rfl]
          rw [zipWith_assoc_of_assoc op hop]

/-- Auxiliary: reducing per-block candidates across blocks equals the
one-shot reduction of the flattened matrix, for an associative operator
and nonempty blocks. -/
theorem colReduce_flatten (op : ℚ → ℚ → ℚ)
    (hop : ∀ a b c, op (op a b) c = op a (op b c)) :
    ∀ (parts : List (List (List ℚ))), (∀ p ∈ parts, p ≠ []) →
      colReduce op (parts.map (colReduce op)) = colReduce op parts.flatten := by
  intro parts
  induction parts with
  | nil => intro _; rfl
  | cons p ps ih =>
      intro hne
      cases ps with
      | nil => simp [colReduce]
      | cons q ps2 =>
          have hp : p ≠ [] := hne p (by simp)
          have hq : q ≠ [] := hne q (by simp)
          have hflat : (q :: ps2).flatten ≠ [] := by
            cases q with
            | nil => exact absurd rfl hq
            | cons _ _ => simp
          have hrec : colReduce op ((q :: ps2).map (colReduce op)) =
              colReduce op (q :: ps2).flatten :=
            ih (fun x hx => hne x (List.mem_cons_of_mem p hx))
          have hL : colReduce op ((p :: q :: ps2).map (colReduce op)) =
              List.zipWith op (colReduce op p)
                (colReduce op ((q :: ps2).map (colReduce op))) := rfl
          rw [hL, hrec, show (p :: q :: ps2).flatten = p ++ (q :: ps2).flatten from rfl,
            colReduce_append op hop p (q :: ps2).flatten hp hflat]

/-- C4: the two-level slam aggregation (per-replica column-wise extremum
via the local numpy operator, then an `Allreduce` of the per-replica
candidates with the same operator) is partition-invariant: for any
grouping of the matrix rows into nonempty per-replica blocks it equals
the one-shot column-wise reduction over the whole matrix, both for the
max variant (`SlamMaxHeuristic`) and the min variant (`SlamMinHeuristic`);
and the one-shot max reduction of `[[1,5],[9,2],[3,3]]` is `[9,5]`. -/
theorem slam_reduction_partition_invariant (parts : List (List (List ℚ)))
    (hne : ∀ p ∈ parts, p ≠ []) :
    Allreduce_vecs max (parts.map (colReduce max)) = colReduce max parts.flatten ∧
    Allreduce_vecs min (parts.map (colReduce min)) = colReduce min parts.flatten ∧
    colReduce max [[1, 5], [9, 2], [3, 3]] = [9, 5] := by
  refine ⟨?_, ?_, ?_⟩
  · exact colReduce_flatten max (fun a b c => max_assoc a b c) parts hne
  · exact colReduce_flatten min (fun a b c => min_assoc a b c) parts hne
  · show List.zipWith max [(1:ℚ), 5] (List.zipWith max [9, 2] [3, 3]) = [9, 5]
    norm_num

/-- Witness for C4 at the split `[[1,5]] / [[9,2],[3,3]]` of the example
matrix. -/
theorem slam_reduction_partition_invariant_witness :
    Allreduce_vecs max (([[[(1:ℚ), 5]], [[9, 2], [3, 3]]]).map (colReduce max)) =
      colReduce max ([[[(1:ℚ), 5]], [[9, 2], [3, 3]]] : List (List (List ℚ))).flatten :=
  (slam_reduction_partition_invariant [[[(1:ℚ), 5]], [[9, 2], [3, 3]]]
    (by intro p hp; simp only [List.mem_cons, List.mem_singleton] at hp
        rcases hp with h | h | h <;> first | (subst h; simp) | exact absurd h (by simp))).1

/-- Auxiliary: Python round-half-to-even always returns a nearest
integer of its argument. -/
theorem pythonRound_nearest (q : ℚ) : |(pythonRound q : ℚ) - q| ≤ 1/2 := by
  have h0 : (0 : ℚ) ≤ q - (⌊q⌋ : ℚ) := by
    have := Int.floor_le q; linarith
  have h1 : q - (⌊q⌋ : ℚ) < 1 := by
    have := Int.lt_floor_add_one q; linarith
  unfold pythonRound
  by_cases hlt : q - (⌊q⌋ : ℚ) < 1/2
  · rw [if_pos hlt, abs_of_nonpos (by linarith)]
    linarith
  · rw [if_neg hlt]
    by_cases hgt : 1/2 < q - (⌊q⌋ : ℚ)
    · rw [if_pos hgt]
      push_cast
      rw [abs_of_nonneg (by linarith)]
      linarith
    · rw [if_neg hgt]
      have heq : q - (⌊q⌋ : ℚ) = 1/2 := le_antisymm (not_lt.1 hgt) (not_lt.1 hlt)
      by_cases hev : Even ⌊q⌋
      · rw [if_pos hev, abs_of_nonpos (by linarith)]
        linarith
      · rw [if_neg hev]
        push_cast
        rw [abs_of_nonneg (by linarith)]
        linarith

/-- C5: in the slam fixing loop, an integer- or binary-typed variable is
fixed to `round(candidate + rounding_bias)` — a nearest integer of the
biased candidate — while a continuous variable is fixed to the candidate
value itself, unrounded, whatever the bias; in particular candidate `2.3`
with bias `0` rounds to `2` and with bias `0.5` rounds to `3`. -/
theorem slam_rounding (var : NonantVar) (v b : ℚ) :
    ((var.is_binary || var.is_integer) = true →
        slam_fix_value var v b = (pythonRound (v + b) : ℚ) ∧
        |slam_fix_value var v b - (v + b)| ≤ 1/2) ∧
    ((var.is_binary || var.is_integer) = false → slam_fix_value var v b = v) ∧
    pythonRound (23/10 + 0) = 2 ∧
    pythonRound (23/10 + 1/2) = 3 := by
  have hf1 : ⌊(23/10 : ℚ)⌋ = 2 := by
    rw [Int.floor_eq_iff]; constructor <;> norm_num
  have hf2 : ⌊(14/5 : ℚ)⌋ = 2 := by
    rw [Int.floor_eq_iff]; constructor <;> norm_num
  have e1 : pythonRound ((23 : ℚ)/10 + 0) = 2 := by
    rw [show ((23 : ℚ)/10 + 0) = 23/10 by norm_num]
    unfold pythonRound
    rw [hf1, if_pos (by norm_num)]
  have e2 : pythonRound ((23 : ℚ)/10 + 1/2) = 3 := by
    rw [show ((23 : ℚ)/10 + 1/2) = 14/5 by norm_num]
    unfold pythonRound
    rw [hf2, if_neg (by norm_num), if_pos (by norm_num)]
    norm_num
  refine ⟨?_, ?_, e1, e2⟩
  · intro h
    have hv : slam_fix_value var v b = (pythonRound (v + b) : ℚ) := by
      unfold slam_fix_value
      rw [if_pos h]
    exact ⟨hv, by rw [hv]; exact pythonRound_nearest (v + b)⟩
  · intro h
    unfold slam_fix_value
    rw [if_neg (by simp [h])]

/-- Witness for C5 at a binary variable, candidate `23/10`, bias `0`. -/
theorem slam_rounding_witness :
    slam_fix_value ⟨true, false, false, none⟩ (23/10) 0 =
      (pythonRound (23/10 + 0) : ℚ) :=
  ((slam_rounding ⟨true, false, false, none⟩ (23/10) 0).1 (by decide)).1

/-- Auxiliary: the fixing pass preserves the number of variables. -/
theorem slam_fix_go_length (cand : List ℚ) (bias : ℚ) :
    ∀ (ix : ℕ) (vars : List NonantVar),
      (slam_fix_go cand bias ix vars).length = vars.length := by
  intro ix vars
  induction vars generalizing ix with
  | nil => rfl
  | cons var rest ih => simp [slam_fix_go, ih]

/-- Auxiliary: pointwise description of the fixing pass. -/
theorem slam_fix_go_get? (cand : List ℚ) (bias : ℚ) :
    ∀ (vars : List NonantVar) (ix j : ℕ) (var : NonantVar),
      vars.get? j = some var →
      (slam_fix_go cand bias ix vars).get? j =
        some (if var.surrogate then var
              else { var with
                       fixedTo := some (slam_fix_value var (cand.getD (ix + j) 0) bias) }) := by
  intro vars
  induction vars with
  | nil => intro ix j var h; simp at h
  | cons v0 rest ih =>
      intro ix j var h
      cases j with
      | zero =>
          simp only [List.get?] at h
          cases h
          simp [slam_fix_go]
      | succ j2 =>
          simp only [List.get?] at h
          have := ih (ix + 1) j2 var h
          simpa [slam_fix_go, Nat.add_assoc, Nat.add_comm 1 j2] using this

/-- C6: on each new nonant vector the slam spoke fixes, in every local
scenario, every nonant variable at enumeration index `ix` to the processed
global-candidate entry `ix` — except a variable flagged as a surrogate
nonant, which is skipped and left entirely unchanged; the pass preserves
the variable count and the index alignment between the candidate vector
and the variables (a skipped surrogate still advances the index). -/
theorem slam_fix_frame (scenarios : List (List NonantVar)) (cand : List ℚ) (bias : ℚ) :
    (∀ j, (slam_fix_scenarios scenarios cand bias).get? j =
        (scenarios.get? j).map (fun vars => slam_fix_vars vars cand bias)) ∧
    (∀ vars : List NonantVar, (slam_fix_vars vars cand bias).length = vars.length) ∧
    (∀ (vars : List NonantVar) (ix : ℕ) (var : NonantVar),
        vars.get? ix = some var →
        (var.surrogate = true → (slam_fix_vars vars cand bias).get? ix = some var) ∧
        (var.surrogate = false →
          (slam_fix_vars vars cand bias).get? ix =
            some { var with fixedTo := some (slam_fix_value var (cand.getD ix 0) bias) })) := by
  refine ⟨?_, ?_, ?_⟩
  · intro j
    unfold slam_fix_scenarios
    exact List.get?_map _ _ j
  · intro vars
    exact slam_fix_go_length cand bias 0 vars
  · intro vars ix var h
    have hpt := slam_fix_go_get? cand bias vars 0 ix var h
    rw [Nat.zero_add] at hpt
    constructor
    · intro hs
      rw [slam_fix_vars, hpt, if_pos hs]
    · intro hs
      rw [slam_fix_vars, hpt, if_neg (by simp [hs])]

/-- Witness for C6: one scenario with a surrogate variable at index 0
(left unchanged) and an ordinary variable at index 1 (fixed to the
candidate entry at index 1). -/
theorem slam_fix_frame_witness :
    (slam_fix_vars [⟨false, false, true, none⟩, ⟨false, false, false, none⟩] [5, 7] 0).get? 0 =
      some ⟨false, false, true, none⟩ ∧
    (slam_fix_vars [⟨false, false, true, none⟩, ⟨false, false, false, none⟩] [5, 7] 0).get? 1 =
      some ⟨false, false, false, some 7⟩ := by
  constructor
  · exact ((slam_fix_frame [] [5, 7] 0).2.2
      [⟨false, false, true, none⟩, ⟨false, false, false, none⟩] 0
      ⟨false, false, true, none⟩ rfl).1 rfl
  · have := ((slam_fix_frame [] [5, 7] 0).2.2
      [⟨false, false, true, none⟩, ⟨false, false, false, none⟩] 1
      ⟨false, false, false, none⟩ rfl).2 rfl
    rw [this]
    rfl

/-- Auxiliary: every counter value at which detection fired is strictly
above the last-seen value the reader started with. -/
theorem detectRun_mem_lt :
    ∀ (events : List WinEvent) (hc ls x : ℕ), x ∈ detectRun hc ls events → ls < x := by
  intro events
  induction events with
  | nil => intro hc ls x hx; simp [detectRun] at hx
  | cons e es ih =>
      intro hc ls x hx
      cases e with
      | publish => exact ih (hc + 1) ls x hx
      | poll =>
          rw [show detectRun hc ls (WinEvent.poll :: es) =
              (if ls < hc then hc :: detectRun hc hc es else detectRun hc ls es) from rfl] at hx
          by_cases h : ls < hc
          · rw [if_pos h] at hx
            rcases List.mem_cons.1 hx with rfl | hx2
            · exact h
            · exact lt_trans h (ih hc hc x hx2)
          · rw [if_neg h] at hx
            exact ih hc ls x hx

/-- Auxiliary: the fired counter values are strictly increasing. -/
theorem detectRun_chain :
    ∀ (events : List WinEvent) (hc ls : ℕ),
      List.Chain' (· < ·) (detectRun hc ls events) := by
  intro events
  induction events with
  | nil => intro hc ls; simp [detectRun]
  | cons e es ih =>
      intro hc ls
      cases e with
      | publish => exact ih (hc + 1) ls
      | poll =>
          rw [show detectRun hc ls (WinEvent.poll :: es) =
              (if ls < hc then hc :: detectRun hc hc es else detectRun hc ls es) from rfl]
          by_cases h : ls < hc
          · rw [if_pos h]
            refine List.chain'_cons'.2 ⟨?_, ih hc hc⟩
            intro y hy
            exact detectRun_mem_lt es hc hc y (List.mem_of_mem_head? hy)
          · rw [if_neg h]
            exact ih hc ls

/-- Auxiliary: a publish at the head of the schedule adds one to the
publish count; a poll does not. -/
theorem publishCount_cons (e : WinEvent) (es : List WinEvent) :
    publishCount (e :: es) =
      publishCount es + (if e = WinEvent.publish then 1 else 0) := by
  cases e <;> simp [publishCount, List.filter]

/-- Auxiliary: detection fires at most once per publish. -/
theorem detectRun_length_le :
    ∀ (events : List WinEvent) (hc ls : ℕ), ls ≤ hc →
      (detectRun hc ls events).length + ls ≤ hc + publishCount events := by
  intro events
  induction events with
  | nil => intro hc ls h; simpa [detectRun, publishCount] using h
  | cons e es ih =>
      intro hc ls h
      cases e with
      | publish =>
          have := ih (hc + 1) ls (by omega)
          rw [show detectRun hc ls (WinEvent.publish :: es) =
              detectRun (hc + 1) ls es from rfl, publishCount_cons]
          rw [if_pos rfl]
          omega
      | poll =>
          rw [show detectRun hc ls (WinEvent.poll :: es) =
              (if ls < hc then hc :: detectRun hc hc es else detectRun hc ls es) from rfl,
            publishCount_cons]
          simp only [reduceCtorEq, if_false]
          by_cases hf : ls < hc
          · rw [if_pos hf]
            have := ih hc hc le_rfl
            simp only [List.length_cons]
            omega
          · rw [if_neg hf]
            have := ih hc ls h
            omega

/-- Auxiliary: under the publish-then-poll alternating schedule the
detector fires at exactly the counter values `hc+1, …, hc+n`. -/
theorem detectRun_alternating :
    ∀ (n hc : ℕ), detectRun hc hc (alternatingSchedule n) = List.range' (hc + 1) n := by
  intro n
  induction n with
  | zero => intro hc; rfl
  | succ m ih =>
      intro hc
      have hsched : alternatingSchedule (m + 1) =
          WinEvent.publish :: WinEvent.poll :: alternatingSchedule m := by
        simp [alternatingSchedule, List.replicate_succ]
      rw [hsched]
      rw [show detectRun hc hc (WinEvent.publish :: WinEvent.poll :: alternatingSchedule m) =
          (if hc < hc + 1 then (hc + 1) :: detectRun (hc + 1) (hc + 1) (alternatingSchedule m)
           else detectRun (hc + 1) hc (alternatingSchedule m)) from rfl]
      rw [if_pos (Nat.lt_succ_self hc), ih (hc + 1)]
      rfl

/-- C1: over any interleaving of hub publishes and reader polls starting
from a fresh window (counter 0, last-seen 0), the counter values at which
new-data detection evaluates to true are strictly increasing — the spoke
never acts twice on the same counter value — and detection fires at most
once per publish; under the schedule that polls once after every publish
it fires exactly once per publish, at the counter values `1, …, n`. -/
theorem new_data_detection (events : List WinEvent) (n : ℕ) :
    List.Chain' (· < ·) (detectRun 0 0 events) ∧
    (detectRun 0 0 events).Nodup ∧
    (detectRun 0 0 events).length ≤ publishCount events ∧
    detectRun 0 0 (alternatingSchedule n) = List.range' 1 n := by
  refine ⟨detectRun_chain events 0 0, ?_, ?_, detectRun_alternating n 0⟩
  · exact List.Pairwise.imp ne_of_lt
      (List.chain'_iff_pairwise.1 (detectRun_chain events 0 0))
  · have := detectRun_length_le events 0 0 le_rfl
    omega

/-- Auxiliary: one minimizing `update_if_improving` call never raises the
tracked best. -/
theorem update_min_step_le (b : WithTop ℚ) (v : ℚ) :
    (update_if_improving_min b v).1 ≤ b := by
  unfold update_if_improving_min
  by_cases h : (v : WithTop ℚ) < b
  · rw [if_pos h]; exact le_of_lt h
  · rw [if_neg h]

/-- Auxiliary: one maximizing `update_if_improving` call never lowers the
tracked best. -/
theorem update_max_step_le (b : WithBot ℚ) (v : ℚ) :
    b ≤ (update_if_improving_max b v).1 := by
  unfold update_if_improving_max
  by_cases h : b < (v : WithBot ℚ)
  · rw [if_pos h]; exact le_of_lt h
  · rw [if_neg h]

/-- Auxiliary: a run of minimizing calls never ends above its start. -/
theorem foldl_min_le (l : List ℚ) :
    ∀ b : WithTop ℚ,
      l.foldl (fun b v => (update_if_improving_min b v).1) b ≤ b := by
  induction l with
  | nil => intro b; exact le_rfl
  | cons v l ih =>
      intro b
      exact le_trans (ih (update_if_improving_min b v).1) (update_min_step_le b v)

/-- Auxiliary: a run of maximizing calls never ends below its start. -/
theorem foldl_max_ge (l : List ℚ) :
    ∀ b : WithBot ℚ,
      b ≤ l.foldl (fun b v => (update_if_improving_max b v).1) b := by
  induction l with
  | nil => intro b; exact le_rfl
  | cons v l ih =>
      intro b
      exact le_trans (update_max_step_le b v) (ih (update_if_improving_max b v).1)

/-- C2: the hub-tracked best of one spoke is a monotonic ratchet under
`update_if_improving`: the minimizing (inner) best starts at `+∞` and is
non-increasing along any call sequence, the maximizing (outer) best starts
at `-∞` and is non-decreasing, a call that does not strictly improve the
best (ties included) leaves it unchanged and publishes nothing, and the
end-to-end minimize scenario holds: calls `10, 12, 8` from best `+∞` leave
the best at `10`, then `10` (the `12` is rejected), then `8`. -/
theorem update_if_improving_ratchet :
    run_min ([] : List ℚ) = ⊤ ∧
    run_max ([] : List ℚ) = ⊥ ∧
    (∀ (calls : List ℚ) (i j : ℕ), i ≤ j →
        run_min (calls.take j) ≤ run_min (calls.take i)) ∧
    (∀ (calls : List ℚ) (i j : ℕ), i ≤ j →
        run_max (calls.take i) ≤ run_max (calls.take j)) ∧
    (∀ (b : WithTop ℚ) (v : ℚ), ¬ ((v : WithTop ℚ) < b) →
        update_if_improving_min b v = (b, false)) ∧
    (∀ (b : WithBot ℚ) (v : ℚ), ¬ (b < (v : WithBot ℚ)) →
        update_if_improving_max b v = (b, false)) ∧
    run_min [10] = ((10 : ℚ) : WithTop ℚ) ∧
    run_min [10, 12] = ((10 : ℚ) : WithTop ℚ) ∧
    run_min [10, 12, 8] = ((8 : ℚ) : WithTop ℚ) := by
  have h10 : update_if_improving_min ⊤ (10 : ℚ) = (((10 : ℚ) : WithTop ℚ), true) := by
    unfold update_if_improving_min
    rw [if_pos (WithTop.coe_lt_top (10 : ℚ))]
  have h12 : update_if_improving_min ((10 : ℚ) : WithTop ℚ) (12 : ℚ) =
      (((10 : ℚ) : WithTop ℚ), false) := by
    unfold update_if_improving_min
    rw [if_neg (by rw [WithTop.coe_lt_coe]; norm_num)]
  have h8 : update_if_improving_min ((10 : ℚ) : WithTop ℚ) (8 : ℚ) =
      (((8 : ℚ) : WithTop ℚ), true) := by
    unfold update_if_improving_min
    rw [if_pos (by rw [WithTop.coe_lt_coe]; norm_num)]
  refine ⟨rfl, rfl, ?_, ?_, ?_, ?_, ?_, ?_, ?_⟩
  · intro calls i j hij
    have hsplit : calls.take j = calls.take i ++ (calls.take j).drop i := by
      conv_lhs => rw [← List.take_append_drop i (calls.take j)]
      rw [List.take_take, min_eq_left hij]
    rw [run_min, hsplit, List.foldl_append]
    exact foldl_min_le _ _
  · intro calls i j hij
    have hsplit : calls.take j = calls.take i ++ (calls.take j).drop i := by
      conv_lhs => rw [← List.take_append_drop i (calls.take j)]
      rw [List.take_take, min_eq_left hij]
    rw [hsplit]
    show run_max (calls.take i) ≤
      List.foldl (fun b v => (update_if_improving_max b v).1) ⊥
        (calls.take i ++ (calls.take j).drop i)
    rw [List.foldl_append]
    exact foldl_max_ge _ _
  · intro b v h
    unfold update_if_improving_min
    rw [if_neg h]
  · intro b v h
    unfold update_if_improving_max
    rw [if_neg h]
  · show (update_if_improving_min ⊤ (10 : ℚ)).1 = ((10 : ℚ) : WithTop ℚ)
    rw [h10]
  · show (update_if_improving_min (update_if_improving_min ⊤ (10 : ℚ)).1 (12 : ℚ)).1 =
      ((10 : ℚ) : WithTop ℚ)
    rw [h10, h12]
  · show (update_if_improving_min
        (update_if_improving_min (update_if_improving_min ⊤ (10 : ℚ)).1 (12 : ℚ)).1 (8 : ℚ)).1 =
      ((8 : ℚ) : WithTop ℚ)
    rw [h10, h12, h8]

/-- Witness for C2: the ratchet inequality and the tie-rejection at
concrete inputs. -/
theorem update_if_improving_ratchet_witness :
    run_min ([10, 12, 8].take 3) ≤ run_min ([10, 12, 8].take 1) ∧
    update_if_improving_min ((10 : ℚ) : WithTop ℚ) (10 : ℚ) =
      (((10 : ℚ) : WithTop ℚ), false) :=
  ⟨update_if_improving_ratchet.2.2.1 [10, 12, 8] 1 3 (by norm_num),
   update_if_improving_ratchet.2.2.2.2.1 ((10 : ℚ) : WithTop ℚ) 10 (lt_irrefl _)⟩

/-- C3: in the `while not self.got_kill_signal()` loop of
`_SlamHeuristic.main` / `XhatLooperInnerBound.main`, the flag is checked
once at the top of every pass (the check count is one more than the number
of passes that ran the body, capped by the schedule length); every value
passed to `update_if_improving` comes from a pass strictly before the
first pass on which the flag is observed true — after observing the flag
the spoke performs no further `update_if_improving` call — and when the
flag never becomes true the loop never stops on its own: there is no
other cancellation. -/
theorem spoke_loop_kill_signal (its : List SpokeIter) :
    (spoke_main_loop its).1 =
      ((its.takeWhile (fun it => !it.kill)).filter (fun it => it.hasNew)).map
        (fun it => it.value) ∧
    ((∀ it ∈ its, it.kill = false) → (spoke_main_loop its).2 = its.length) ∧
    (spoke_main_loop its).2 =
      min its.length ((its.takeWhile (fun it => !it.kill)).length + 1) := by
  induction its with
  | nil => exact ⟨rfl, fun _ => rfl, rfl⟩
  | cons it rest ih =>
      by_cases hk : it.kill
      · have hstep : spoke_main_loop (it :: rest) = ([], 1) := by
          rw [spoke_main_loop, if_pos hk]
        refine ⟨?_, ?_, ?_⟩
        · rw [hstep, List.takeWhile_cons]
          simp [hk]
        · intro hall
          simp [hall it (List.mem_cons_self it rest)] at hk
        · rw [hstep, List.takeWhile_cons]
          simp [hk]
      · have hkf : it.kill = false := Bool.eq_false_iff.2 hk
        have hstep : spoke_main_loop (it :: rest) =
            ((if it.hasNew then [it.value] else []) ++ (spoke_main_loop rest).1,
             (spoke_main_loop rest).2 + 1) := by
          rw [spoke_main_loop, if_neg hk]
        have htw : (it :: rest).takeWhile (fun it => !it.kill) =
            it :: rest.takeWhile (fun it => !it.kill) := by
          rw [List.takeWhile_cons]
          simp [hkf]
        refine ⟨?_, ?_, ?_⟩
        · rw [hstep, htw, List.filter_cons]
          by_cases hn : it.hasNew
          · simp [hn, ih.1]
          · simp [Bool.eq_false_iff.2 hn, ih.1]
        · intro hall
          rw [hstep, ih.2.1 (fun x hx => hall x (List.mem_cons_of_mem it hx))]
          rfl
        · rw [hstep, htw, ih.2.2]
          simp only [List.length_cons]
          omega

/-- Witness for C3 (the no-kill conjunct) on a two-pass schedule with the
flag always false. -/
theorem spoke_loop_kill_signal_witness :
    (spoke_main_loop [⟨false, true, 4⟩, ⟨false, false, 5⟩]).2 = 2 :=
  (spoke_loop_kill_signal [⟨false, true, 4⟩, ⟨false, false, 5⟩]).2.1
    (by intro it hit
        rcases List.mem_cons.1 hit with rfl | h2
        · rfl
        · rcases List.mem_cons.1 h2 with rfl | h3
          · rfl
          · simp at h3)

/-- C8: the slam spoke checks its startup preconditions fatally before the
loop: a multistage model raises the two-stage-only `RuntimeError` before
any pass runs; a non-`Xhat_Eval` optimizer raises the `Xhat_Eval`
`RuntimeError` before any pass runs; and when both preconditions hold
neither of those errors is ever raised. -/
theorem slam_startup_preconditions (opt : OptState) (iters : List SpokeIter) :
    (opt.multistage = true →
        slam_main opt iters = Except.error PyError.multistageError) ∧
    (opt.multistage = false → opt.isXhatEval = false →
        slam_main opt iters = Except.error PyError.notXhatEval) ∧
    (opt.multistage = false → opt.isXhatEval = true →
        slam_main opt iters ≠ Except.error PyError.multistageError ∧
        slam_main opt iters ≠ Except.error PyError.notXhatEval) := by
  refine ⟨?_, ?_, ?_⟩
  · intro hm
    rw [slam_main, slam_heur_prep, if_pos hm]
  · intro hm hx
    rw [slam_main, slam_heur_prep, if_neg (by rw [hm]; exact Bool.false_ne_true),
      if_pos (by rw [hx]; rfl)]
  · intro hm hx
    rw [slam_main, slam_heur_prep, if_neg (by rw [hm]; exact Bool.false_ne_true),
      if_neg (by rw [hx]; exact Bool.false_ne_true)]
    cases hv : dictGet opt.options "verbose" with
    | error e =>
        have he : e = PyError.keyError "verbose" := by
          unfold dictGet at hv
          cases hfind : opt.options.find? (fun p => p.1 = "verbose") with
          | none => rw [hfind] at hv; cases hv; rfl
          | some p => rw [hfind] at hv; cases hv
        subst he
        exact ⟨by simp, by simp⟩
    | ok v => exact ⟨by simp, by simp⟩

/-- Witness for C8 on a multistage optimizer state. -/
theorem slam_startup_preconditions_witness :
    slam_main ⟨true, true, [], 1, 0, []⟩ [] = Except.error PyError.multistageError :=
  (slam_startup_preconditions ⟨true, true, [], 1, 0, []⟩ []).1 rfl

/-- C9: in the look-ahead (xhatlooper) warm-up, once the bundling and
`Xhat_Eval` preconditions pass, a scenario-probability sum deviating from 1
beyond `E1_tolerance` aborts the entire run, carrying the diagnostic values
(`E1` and the tolerance), and `main` stops there — before any loop pass
runs; a sum within tolerance lets the warm-up proceed and cache the
current nonant values as the restore point. -/
theorem xhatlooper_probability_check (opt : OptState) (iters : List SpokeIter)
    (hb : dictMem opt.options "bundles_per_rank" = false)
    (hx : opt.isXhatEval = true) :
    (¬ (|1 - opt.E1| ≤ opt.E1_tolerance) →
        xhatlooper_prep opt =
          Except.error (PyError.abortProbability opt.E1 opt.E1_tolerance) ∧
        xhatlooper_main opt iters =
          Except.error (PyError.abortProbability opt.E1 opt.E1_tolerance)) ∧
    (|1 - opt.E1| ≤ opt.E1_tolerance →
        xhatlooper_prep opt = Except.ok opt.current_nonants) := by
  have hbc : (dictMem opt.options "bundles_per_rank"
      && !(OptVal.isZero (dictGetD opt.options "bundles_per_rank" (OptVal.num 0)))) = false := by
    rw [hb]; rfl
  constructor
  · intro hdev
    have hprep : xhatlooper_prep opt =
        Except.error (PyError.abortProbability opt.E1 opt.E1_tolerance) := by
      rw [xhatlooper_prep, if_neg (by rw [hbc]; exact Bool.false_ne_true),
        if_neg (by rw [hx]; exact Bool.false_ne_true), if_pos hdev]
    exact ⟨hprep, by rw [xhatlooper_main, hprep]⟩
  · intro hin
    rw [xhatlooper_prep, if_neg (by rw [hbc]; exact Bool.false_ne_true),
      if_neg (by rw [hx]; exact Bool.false_ne_true), if_neg (by exact not_not_intro hin)]

/-- Witness for C9: probability sum 2 with tolerance 1/2 aborts; sum 1
with tolerance 1/2 proceeds and caches the nonants `[3, 4]`. -/
theorem xhatlooper_probability_check_witness :
    xhatlooper_main ⟨false, true, [], 2, 1/2, [3, 4]⟩ [] =
      Except.error (PyError.abortProbability 2 (1/2)) ∧
    xhatlooper_prep ⟨false, true, [], 1, 1/2, [3, 4]⟩ = Except.ok [3, 4] :=
  ⟨((xhatlooper_probability_check ⟨false, true, [], 2, 1/2, [3, 4]⟩ [] rfl rfl).1
      (by norm_num)).2,
   (xhatlooper_probability_check ⟨false, true, [], 1, 1/2, [3, 4]⟩ [] rfl rfl).2
      (by norm_num)⟩

/-- C10 counterexample: the aggregation (slam) spoke runs to completion
with `"rounding_bias"` absent from the options — the read happens inside
the loop body through `options.get` with default `0.0`, so an absent key
is not fatal anywhere, let alone at role construction — and role
construction (`SPCommunicator.__init__`) stores the options without
reading any key. -/
theorem missing_rounding_bias_not_fatal :
    slam_rounding_bias [] = OptVal.num 0 ∧
    slam_main ⟨false, true, [("verbose", OptVal.boolean false)], 1, 0, []⟩
        [⟨false, true, 3⟩] = Except.ok ([3], 1) ∧
    spcommunicator_init (some []) = [] :=
  ⟨rfl, rfl, rfl⟩

/-- C10 amended: role construction reads no option key (it only stores the
mapping, so an absent key cannot be fatal there); the aggregation spoke
reads its rounding bias inside `main` through `options.get` with default
`0.0`, so an absent key silently yields bias `0`; the look-ahead spoke
reads its candidate-search limit by name at the top of `main`, after
warm-up and before the first loop pass, and an absent key raises a fatal
`KeyError` there. -/
theorem option_key_reads_amended (opts : Dict) (opt : OptState)
    (iters : List SpokeIter)
    (hmem : opts.find? (fun p => p.1 = "rounding_bias") = none)
    (hmem2 : opt.options.find? (fun p => p.1 = "xhat_looper_options") = none)
    (hb : dictMem opt.options "bundles_per_rank" = false)
    (hx : opt.isXhatEval = true)
    (he : |1 - opt.E1| ≤ opt.E1_tolerance) :
    spcommunicator_init (some opts) = opts ∧
    slam_rounding_bias opts = OptVal.num 0 ∧
    xhatlooper_main opt iters =
      Except.error (PyError.keyError "xhat_looper_options") := by
  refine ⟨rfl, ?_, ?_⟩
  · rw [slam_rounding_bias, dictGetD, hmem]
  · have hbc : (dictMem opt.options "bundles_per_rank"
        && !(OptVal.isZero (dictGetD opt.options "bundles_per_rank" (OptVal.num 0)))) = false := by
      rw [hb]; rfl
    have hprep : xhatlooper_prep opt = Except.ok opt.current_nonants := by
      rw [xhatlooper_prep, if_neg (by rw [hbc]; exact Bool.false_ne_true),
        if_neg (by rw [hx]; exact Bool.false_ne_true), if_neg (by exact not_not_intro he)]
    rw [xhatlooper_main, hprep, scen_limit_lookup, dictGet, hmem2]

/-- Witness for the amended C10 at empty options. -/
theorem option_key_reads_amended_witness :
    slam_rounding_bias [] = OptVal.num 0 ∧
    xhatlooper_main ⟨false, true, [], 1, 0, []⟩ [] =
      Except.error (PyError.keyError "xhat_looper_options") :=
  ⟨(option_key_reads_amended [] ⟨false, true, [], 1, 0, []⟩ [] rfl rfl rfl rfl
      (by norm_num)).2.1,
   (option_key_reads_amended [] ⟨false, true, [], 1, 0, []⟩ [] rfl rfl rfl rfl
      (by norm_num)).2.2⟩

end MpiSppy
